import Mathlib

/-!
Shallow embedding of the job-board scraper `Mag10-11-25.py` (a single-file
Python program) and proofs about it.

Modelling conventions:
* A Python `str` is modelled as `List Char`.  All character classes are the
  ASCII fragments actually exercised by the program (Python's `\w`, `\s`,
  `str.lower`, `str.strip` are Unicode-aware; the embedding models their
  ASCII behaviour, which is what the scraped ASCII markup exercises).
* A BeautifulSoup document is modelled as a structure holding, for each
  selector query the program performs, the result that query would return:
  `Option` for `find`-style lookups (`none` = element absent) and `List`
  for `select`-style lookups.  Texts stored in the structure are the
  `get_text(..., strip=True)` rendering of the corresponding node.
* Fallible Python code (attribute access on a possibly-`None` value) is
  modelled with `Except Unit`: `Except.error ()` marks a raised exception.
* All definitions are executable and use structural recursion only, so
  concrete runs evaluate by `rfl`/`decide`.
-/

/-- ASCII model of the regex class `\s` and of the characters stripped by
`str.strip()`: space, tab, newline, carriage return, vertical tab, form feed. -/
def isSpaceC (c : Char) : Bool :=
  c == ' ' || c == '\t' || c == '\n' || c == '\r' || c == '\x0b' || c == '\x0c'

/-- ASCII model of the regex class `\w`: letters, digits and underscore. -/
def isWordC (c : Char) : Bool :=
  c.isAlphanum || c == '_'

/-- The regex class `[\w\.-]` from the email pattern in `extract_email`
(source line 33): word characters, dot and hyphen. -/
def isEmailC (c : Char) : Bool :=
  isWordC c || c == '.' || c == '-'

/-- Model of Python `str.strip()`: drop leading and trailing whitespace. -/
def stripCL (l : List Char) : List Char :=
  ((l.dropWhile isSpaceC).reverse.dropWhile isSpaceC).reverse

/-- ASCII model of Python `str.lower` on one character: map `A`–`Z` (codepoints
65–90) to the corresponding lowercase letter, leave everything else alone. -/
def lowerChar (c : Char) : Char :=
  if h : 65 ≤ c.toNat ∧ c.toNat ≤ 90 then
    Char.ofNatAux (c.toNat + 32) (Or.inl (by omega))
  else c

/-- ASCII model of Python `str.lower()` on a whole string. -/
def lowerCL (l : List Char) : List Char :=
  l.map lowerChar

/-- Model of the Python substring test `needle in hay`. -/
def containsSub (needle : List Char) : List Char → Bool
  | [] => needle.isEmpty
  | c :: rest => needle.isPrefixOf (c :: rest) || containsSub needle rest

/-- Model of Python `sep.join(pieces)` for a one-character separator. -/
def joinSep (sep : Char) : List (List Char) → List Char
  | [] => []
  | [l] => l
  | l :: ls => l ++ sep :: joinSep sep ls

/-- Worker for `splitWs`; `cur` is the reversed word currently being read. -/
def splitWsGo (cur : List Char) : List Char → List (List Char)
  | [] => if cur.isEmpty then [] else [cur.reverse]
  | c :: rest =>
    if isSpaceC c then
      if cur.isEmpty then splitWsGo [] rest else cur.reverse :: splitWsGo [] rest
    else splitWsGo (c :: cur) rest

/-- Model of Python `str.split()` with no argument: split on runs of
whitespace, producing no empty words. -/
def splitWs (s : List Char) : List (List Char) :=
  splitWsGo [] s

/-- Worker for `collapseWs`; the flag records whether the previous character
was whitespace (so a whitespace run yields a single space). -/
def collapseWsGo : Bool → List Char → List Char
  | _, [] => []
  | prevSpace, c :: rest =>
    if isSpaceC c then
      if prevSpace then collapseWsGo true rest else ' ' :: collapseWsGo true rest
    else c :: collapseWsGo false rest

/-- Model of `re.sub(r'\s+', ' ', line)` (source line 47): replace every
maximal whitespace run with a single space. -/
def collapseWs (l : List Char) : List Char :=
  collapseWsGo false l

/-- Model of `extract_text_safe` (source lines 29–30): the argument is the
result of a `find`-style lookup, already rendered as stripped text when the
node is present; a missing node yields the empty string. -/
def extract_text_safe (elem : Option (List Char)) : List Char :=
  match elem with
  | some t => t
  | none => []

/-- Finds the decomposition `r = b ++ '.' :: c :: y` with `isWordC c` that a
backtracking `[\w\.-]+\.\w+` engine would pick inside the run `r`: the split
with the longest possible `b` (Python's greedy `+` backtracks from the right).
Returns `(b, word-run following the dot)`. -/
def dotSplit0 : List Char → Option (List Char × List Char)
  | [] => none
  | c :: rest =>
    match dotSplit0 rest with
    | some (b, w) => some (c :: b, w)
    | none =>
      if c = '.' then
        match rest.takeWhile isWordC with
        | [] => none
        | d :: ws => some ([], d :: ws)
      else none

/-- Attempts to match the email regex `[\w\.-]+@[\w\.-]+\.\w+` anchored at the
head of `cs`, with Python's greedy-backtracking semantics.  Because `@` is not
in the class `[\w\.-]`, the first `+` deterministically takes the maximal
run; the `\.\w+` tail is resolved by `dotSplit0` inside the maximal run after
the `@`. -/
def emailMatchAt (cs : List Char) : Option (List Char) :=
  let run1 := cs.takeWhile isEmailC
  match cs.dropWhile isEmailC with
  | c :: rest2 =>
    if c = '@' then
      if run1.isEmpty then none
      else
        match dotSplit0 (rest2.takeWhile isEmailC) with
        | some (b, w) => if b.isEmpty then none else some (run1 ++ '@' :: b ++ '.' :: w)
        | none => none
    else none
  | [] => none

/-- Model of `re.search`: try to match at position 0, 1, 2, … and return the
first (leftmost) successful match. -/
def emailSearch : List Char → Option (List Char)
  | [] => none
  | c :: rest =>
    match emailMatchAt (c :: rest) with
    | some m => some m
    | none => emailSearch rest

/-- Model of `extract_email` (source lines 32–34): first match of
`[\w\.-]+@[\w\.-]+\.\w+` in `text`, or the empty string when there is none. -/
def extract_email (text : List Char) : List Char :=
  (emailSearch text).getD []

/-- The three-character sequence the source uses as its bullet marker.  The
source file is stored with a double-encoded bullet: instead of U+2022 it
contains the literal characters U+201A U+00C4 U+00A2, and the program
manipulates exactly that three-character string. -/
def bulletStr : List Char :=
  ("‚Ä¢").toList

/-- The characters of the regex class `[-*‚Ä¢]` on source line 46: because of
the double encoding the class lists five individual characters. -/
def isBulletClassC (c : Char) : Bool :=
  c == '-' || c == '*' || c == '‚' || c == 'Ä' || c == '¢'

/-- Model of `re.sub(r'^\s*[-*‚Ä¢]\s*', '‚Ä¢ ', line)` (source line 46):
if the line starts with optional whitespace, then one character of the bullet
class, then optional whitespace, that prefix is replaced by the canonical
bullet marker followed by a space; otherwise the line is unchanged. -/
def bulletSub (l : List Char) : List Char :=
  match l.dropWhile isSpaceC with
  | c :: rest =>
    if isBulletClassC c then bulletStr ++ ' ' :: rest.dropWhile isSpaceC else l
  | [] => l

/-- Does a line contain the (lower-cased) keyword `requirement`
(source line 54)? -/
def hasReqKw (l : List Char) : Bool :=
  containsSub (("requirement").toList) (lowerCL l)

/-- The section-splitting loop of `clean_and_format_text` (source lines
50–60).  `inReq` mirrors the `section` variable (`false` = `'desc'`,
`true` = `'req'`); a line containing `requirement` flips the mode and is
appended to neither output (the loop `continue`s on every such line). -/
def splitSecGo : List (List Char) → Bool → List (List Char) × List (List Char)
  | [], _ => ([], [])
  | l :: rest, inReq =>
    if hasReqKw l then splitSecGo rest true
    else if inReq then
      let p := splitSecGo rest true
      (p.1, l :: p.2)
    else
      let p := splitSecGo rest false
      (l :: p.1, p.2)

/-- Splits the cleaned lines into the description and requirements
sub-sequences, starting in description mode. -/
def splitSections (cleaned : List (List Char)) : List (List Char) × List (List Char) :=
  splitSecGo cleaned false

/-- Model of `l if l.startswith('‚Ä¢') else f"‚Ä¢ {l}"` (source lines 63
and 67): prefix a line with the bullet marker unless it already starts with
the three-character marker. -/
def bulletLine (l : List Char) : List Char :=
  if bulletStr.isPrefixOf l then l else bulletStr ++ ' ' :: l

/-- Header string of the description block (source line 62; the leading
characters are the double-encoded rendering of an emoji in the source). -/
def hdrDesc : List Char :=
  ("üìù **Job Description:**").toList

/-- Header string of the requirements block (source line 66). -/
def hdrReq : List Char :=
  ("üìå **Requirements:**").toList

/-- Model of `clean_and_format_text` (source lines 37–70).  The argument is
the list of `get_text(" ", strip=True)` renderings of the `p`/`li`
descendants of the block, in document order. -/
def clean_and_format_text (texts : List (List Char)) : List Char × List Char :=
  let raw_lines := texts.filter (fun t => !t.isEmpty)
  let cleaned_lines := raw_lines.map (fun l => stripCL (collapseWs (bulletSub l)))
  let p := splitSections cleaned_lines
  let description_lines := p.1
  let requirements_lines := p.2
  let formatted_desc :=
    if description_lines.isEmpty then []
    else hdrDesc ++ '\n' :: joinSep '\n' (description_lines.map bulletLine)
  let formatted_req :=
    if requirements_lines.isEmpty then []
    else hdrReq ++ '\n' :: joinSep '\n' (requirements_lines.map bulletLine)
  (stripCL formatted_desc, stripCL formatted_req)

/-- The literal separator `" at "` used on source line 77 to split the `h1`
heading into title and company. -/
def sepAtL : List Char :=
  (" at ").toList

/-- Fuel-driven worker for `splitOnAtSep` (fuel makes the recursion
structural, so concrete runs reduce in the kernel).  With fuel at least the
length of the input it implements Python `s.split(' at ')`: split at every
non-overlapping occurrence, scanning left to right. -/
def splitAtGo : Nat → List Char → List (List Char)
  | 0, s => [s]
  | _ + 1, [] => [[]]
  | n + 1, c :: rest =>
    if sepAtL.isPrefixOf (c :: rest) then [] :: splitAtGo n (rest.drop 3)
    else
      match splitAtGo n rest with
      | [] => [[c]]
      | w :: ws => (c :: w) :: ws

/-- Model of Python `s.split(' at ')`. -/
def splitOnAtSep (t : List Char) : List (List Char) :=
  splitAtGo t.length t

/-- Index of the first occurrence of `" at "` in `t`, if any (the position at
which Python's `split` places its first cut). -/
def firstSepIdx : List Char → Option Nat
  | [] => none
  | c :: rest =>
    if sepAtL.isPrefixOf (c :: rest) then some 0
    else (firstSepIdx rest).map (fun i => i + 1)

/-- Title/company extraction from the first `h1` text (source lines 74–80):
`parts = h1_text.split(' at ')`, title is `parts[0].strip()`, company is
`parts[1].strip()` when the split produced more than one part. -/
def titleCompanyOf (t : List Char) : List Char × List Char :=
  let parts := splitOnAtSep t
  (stripCL (parts.headD []),
   if 1 < parts.length then stripCL (parts.getD 1 []) else [])

/-- One entry of the key-info list `ul.job-key-info li` (source lines 93–96):
the stripped texts of its `span.jkey-title` and `span.jkey-info` children,
`none` when the span is absent. -/
structure KeyInfoLi where
  jkeyTitle : Option (List Char)
  jkeyInfo : Option (List Char)

/-- The `div` returned by `method_block.find_next('div')` (source lines
120–125): its full stripped text and the `href` of its first `a[href]`
descendant, if any. -/
structure DivNode where
  text : List Char
  firstHref : Option (List Char)

/-- A parsed detail-page document, holding the result of each BeautifulSoup
query `extract_job_data` performs.  Nested `Option`s mirror nested lookups:
the outer layer is the containing element, the inner layer the child lookup
performed when the container was found. -/
structure JobSoup where
  /-- Text of `soup.find('h1')` (line 75), `none` when there is no `h1`. -/
  h1Text : Option (List Char)
  /-- `soup.find('div', class_='company-details')` (line 83): `none` when the
  div is absent, otherwise the text of its first `p` (or `none` inside). -/
  companyDetails : Option (Option (List Char))
  /-- The `Read more about` link lookup (lines 87–90): `none` when the link is
  absent, otherwise the text of `about_link.find_next('p')` (or `none`). -/
  aboutLinkNextP : Option (Option (List Char))
  /-- The entries of `soup.select("ul.job-key-info li")` (line 93). -/
  keyInfo : List KeyInfoLi
  /-- `soup.select_one("div.job-details")` (line 113): when present, the
  texts of the block's `p`/`li` descendants in document order. -/
  jobDetails : Option (List (List Char))
  /-- `soup.find('h2', id='application-method')` (line 118): `none` when the
  heading is absent; when present, the result of `find_next('div')`. -/
  methodNextDiv : Option (Option DivNode)

/-- The seven key-info fields initialised to `''` on source line 92. -/
structure KeyFields where
  location : List Char
  qualification : List Char
  experience : List Char
  job_type : List Char
  field : List Char
  salary : List Char
  job_expires : List Char

/-- One iteration of the key-info classification loop (source lines 94–110):
lower-case the entry's label and assign its value to the first field whose
keyword the label contains; unmatched entries are ignored. -/
def classifyKeyInfo (acc : KeyFields) (li : KeyInfoLi) : KeyFields :=
  let key := lowerCL (extract_text_safe li.jkeyTitle)
  let val := extract_text_safe li.jkeyInfo
  if containsSub (("location").toList) key then { acc with location := val }
  else if containsSub (("qualification").toList) key then { acc with qualification := val }
  else if containsSub (("experience").toList) key then { acc with experience := val }
  else if containsSub (("job type").toList) key then { acc with job_type := val }
  else if containsSub (("field").toList) key then { acc with field := val }
  else if containsSub (("salary").toList) key then { acc with salary := val }
  else if containsSub (("deadline").toList) key || containsSub (("expires").toList) key then
    { acc with job_expires := val }
  else acc

/-- `BASE_URL` (source line 13). -/
def BASE_URL : List Char :=
  ("https://www.myjobmag.com").toList

/-- Application-contact extraction (source lines 117–125).  When the
`application-method` heading exists but no `div` follows it anywhere in the
document, the source evaluates `None.get_text(...)` and raises
`AttributeError`; that raise is modelled as `Except.error ()`. -/
def appMethodFields (soup : JobSoup) : Except Unit (List Char × List Char) :=
  match soup.methodNextDiv with
  | none => Except.ok ([], [])
  | some none => Except.error ()
  | some (some d) =>
    let application_email := extract_email d.text
    let application_url :=
      match d.firstHref with
      | none => []
      | some href =>
        match href with
        | c :: _ => if c == '/' then BASE_URL ++ href else href
        | [] => href
    Except.ok (application_email, application_url)

/-- Model of `'-'.join(title.lower().split())[:50]` (source line 130). -/
def slugOf (title : List Char) : List Char :=
  (joinSep '-' (splitWs (lowerCL title))).take 50

/-- Two newlines, the paragraph separator inside `combined_info`. -/
def nl2 : List Char :=
  ('\n' :: '\n' :: [])

/-- Label of the company line of `combined_info` (source line 135; the prefix
is the double-encoded emoji exactly as stored in the source file). -/
def lblCompany : List Char :=
  ("üè¢ **Company:** ").toList

/-- Label of the location line of `combined_info` (source line 136). -/
def lblLocation : List Char :=
  ("üìç **Location:** ").toList

/-- Label of the qualification line of `combined_info` (source line 137). -/
def lblQualification : List Char :=
  ("üéì **Qualification:** ").toList

/-- Label of the experience line of `combined_info` (source line 138). -/
def lblExperience : List Char :=
  ("‚è≥ **Experience:** ").toList

/-- Label of the job-type line of `combined_info` (source line 139). -/
def lblJobType : List Char :=
  ("üíº **Job Type:** ").toList

/-- Label of the salary line of `combined_info` (source line 140). -/
def lblSalary : List Char :=
  ("üí∞ **Salary:** ").toList

/-- Label of the field line of `combined_info` (source line 141). -/
def lblField : List Char :=
  ("üî¨ **Field:** ").toList

/-- A job record: the Python dict built on source lines 146–164, modelled as
an ordered association list so that key order (= CSV column order) is part of
the value. -/
abbrev JobRecord := List (String × List Char)

/-- Builds the record dict of source lines 146–164 from the document and the
two application-contact fields.  The per-field lookups of source lines 74–115
(title/company, tagline, key-info classification, description/requirements)
are pure, so they are grouped here with the record literal; `extract_job_data`
below first resolves the application contact — the only fallible step — and
then either rejects the page or builds this record, exactly as the source's
control flow does. -/
def jobRecordOf (soup : JobSoup) (application_email application_url : List Char) :
    JobRecord :=
  let tc :=
    match soup.h1Text with
    | none => ([], [])
    | some t => titleCompanyOf t
  let title := tc.1
  let company := tc.2
  let company_tagline :=
    match soup.companyDetails with
    | some p => extract_text_safe p
    | none =>
      match soup.aboutLinkNextP with
      | some p => extract_text_safe p
      | none => []
  let kf := soup.keyInfo.foldl classifyKeyInfo ⟨[], [], [], [], [], [], []⟩
  let dr :=
    match soup.jobDetails with
    | some texts => clean_and_format_text texts
    | none => ([], [])
  let description := dr.1
  let requirements := dr.2
  let slug := slugOf title
  let combined_info := stripCL (
        lblCompany ++ company ++ nl2 ++
        lblLocation ++ kf.location ++ nl2 ++
        lblQualification ++ kf.qualification ++ nl2 ++
        lblExperience ++ kf.experience ++ nl2 ++
        lblJobType ++ kf.job_type ++ nl2 ++
        lblSalary ++ kf.salary ++ nl2 ++
        lblField ++ kf.field ++ nl2 ++
        description ++ nl2 ++
        requirements)
  [("post_title", title ++
      (if company.isEmpty then [] else (" at ").toList ++ company) ++
      (if kf.location.isEmpty then [] else (" in ").toList ++ kf.location)),
   ("company", company),
   ("company_tagline", company_tagline),
   ("job_location", kf.location),
   ("job_type", kf.job_type),
   ("job_salary", kf.salary),
   ("job_expires", kf.job_expires),
   ("job_category", kf.field),
   ("required_qualifications", kf.qualification),
   ("skills_required", []),
   ("application_url", application_url),
   ("application_email", application_email),
   ("slug", slug),
   ("post_category", ("job").toList),
   ("post_tag", kf.field),
   ("subcategory", kf.field),
   ("post_content", combined_info)]

/-- Model of `extract_job_data` (source lines 73–164).  Returns
`Except.error ()` when the source would raise (see `appMethodFields`),
`Except.ok none` for the source's `return None` on missing contact info
(source lines 127–128), and `Except.ok (some record)` otherwise. -/
def extract_job_data (soup : JobSoup) : Except Unit (Option JobRecord) :=
  match appMethodFields soup with
  | Except.error e => Except.error e
  | Except.ok contact =>
    if contact.1.isEmpty && contact.2.isEmpty then Except.ok none
    else Except.ok (some (jobRecordOf soup contact.1 contact.2))

/-- The detail-page path segment `"/job/"` used by the link selectors and the
fallback scan (source lines 168–179). -/
def jobSeg : List Char :=
  ("/job/").toList

/-- A parsed listing-page document for `get_job_links`.  The first two CSS
strategies involve container markup that is not otherwise modelled, so their
result lists are inputs; the third strategy `a[href^="/job/"]` and the
fallback scan both range over all anchors and are derived from
`anchorHrefs`. -/
structure ListingSoup where
  /-- hrefs matched by `div.mag-b h2 a[href^="/job/"]` (line 169). -/
  selMagB : List (List Char)
  /-- hrefs matched by `div.job-listing h2 a[href^="/job/"]` (line 170). -/
  selJobListing : List (List Char)
  /-- hrefs of all `<a href=…>` elements, in document order (line 179). -/
  anchorHrefs : List (List Char)

/-- The third selector strategy `a[href^="/job/"]` (source line 171): all
anchors whose href starts with the detail-page segment. -/
def selJobAll (d : ListingSoup) : List (List Char) :=
  d.anchorHrefs.filter (fun h => jobSeg.isPrefixOf h)

/-- The `for selector in selectors` loop of `get_job_links` (source lines
173–177): return the first strategy result that is non-empty; fall through to
the fallback when every strategy yields nothing. -/
def tryStrategies : List (List (List Char)) → List (List Char) → List (List Char)
  | [], fb => fb
  | r :: rest, fb => if r.isEmpty then tryStrategies rest fb else r

/-- Model of `get_job_links` (source lines 167–179); the fallback scans all
anchors whose href contains `"/job/"`. -/
def get_job_links (d : ListingSoup) : List (List Char) :=
  tryStrategies [d.selMagB, d.selJobListing, selJobAll d]
    (d.anchorHrefs.filter (fun h => containsSub jobSeg h))

/-- Link Collector as the specification states it: the first selector
strategy (in the fixed specific-to-least-specific order) with at least one
match wins outright; only when all three strategies yield nothing does the
collector fall back to the anchors whose target contains the detail-page
segment. -/
def linkCollectorSpec (d : ListingSoup) : List (List Char) :=
  match [d.selMagB, d.selJobListing, selJobAll d].find? (fun r => !r.isEmpty) with
  | some r => r
  | none => d.anchorHrefs.filter (fun h => containsSub jobSeg h)

/-- URL resolution in the orchestrator loop (source line 209):
`BASE_URL + link if link.startswith('/') else link`. -/
def resolveUrl (link : List Char) : List Char :=
  match link with
  | c :: _ => if c == '/' then BASE_URL ++ link else link
  | [] => link

/-- Model of `scrape_job` (source lines 182–191).  `fetch` abstracts the
browser round-trip: `fetch url = none` models any per-page failure
(navigation timeout, wait timeout, parse error), which the source's
`try/except` turns into `None`; the same `try/except` also converts an
exception raised inside `extract_job_data` into `None`. -/
def scrape_job (fetch : List Char → Option JobSoup) (job_url : List Char) :
    Option JobRecord :=
  match fetch job_url with
  | none => none
  | some soup =>
    match extract_job_data soup with
    | Except.error _ => none
    | Except.ok r => r

/-- The per-link loop body of `main` (source lines 208–214), over an explicit
list of links: returns the visited URLs in order and the accumulated rows
(a row is appended exactly when `scrape_job` returned a record). -/
def loopGo (fetch : List Char → Option JobSoup) :
    List (List Char) → List (List Char) × List JobRecord
  | [] => ([], [])
  | link :: rest =>
    let job_url := resolveUrl link
    let row := scrape_job fetch job_url
    let p := loopGo fetch rest
    (job_url :: p.1,
     match row with
     | some r => r :: p.2
     | none => p.2)

/-- The orchestrator's per-link loop `for link in job_links[:10]`
(source line 208): only the first 10 collected links are processed. -/
def mainLoop (fetch : List Char → Option JobSoup) (links : List (List Char)) :
    List (List Char) × List JobRecord :=
  loopGo fetch (links.take 10)

/-- Model of the output-producing part of `main` (source lines 193–230):
collect links from the listing page, return early (no file) when there are
none, run the bounded per-link loop, and write a CSV — modelled as
`(header, rows)` with the header taken from the first record's keys — only
when the accumulated batch is non-empty. -/
def mainRun (fetch : List Char → Option JobSoup) (listing : ListingSoup) :
    Option (List String × List JobRecord) :=
  let job_links := get_job_links listing
  if job_links.isEmpty then none
  else
    let data_rows := (mainLoop fetch job_links).2
    if data_rows.isEmpty then none
    else some ((data_rows.headD []).map Prod.fst, data_rows)

/-- The 17 record keys in the fixed insertion order of the dict literal on
source lines 146–164. -/
def jobFieldNames : List String :=
  ["post_title", "company", "company_tagline", "job_location", "job_type",
   "job_salary", "job_expires", "job_category", "required_qualifications",
   "skills_required", "application_url", "application_email", "slug",
   "post_category", "post_tag", "subcategory", "post_content"]

/-- Extracts the record from a successful `extract_job_data` run (used to
state closed witness instances). -/
def recOfD : Except Unit (Option JobRecord) → JobRecord
  | Except.ok (some r) => r
  | _ => []

/-! ### Generic list lemmas used by several proofs -/

theorem takeWhile_append_all {p : Char → Bool} {xs : List Char} (ys : List Char)
    (h : ∀ c ∈ xs, p c = true) :
    (xs ++ ys).takeWhile p = xs ++ ys.takeWhile p := by
  induction xs with
  | nil => simp
  | cons x xs ih =>
    have hx : p x = true := h x (by simp)
    simp only [List.cons_append, List.takeWhile_cons, hx, if_true]
    rw [ih (fun c hc => h c (by simp [hc]))]

theorem dropWhile_append_all {p : Char → Bool} {xs : List Char} (ys : List Char)
    (h : ∀ c ∈ xs, p c = true) :
    (xs ++ ys).dropWhile p = ys.dropWhile p := by
  induction xs with
  | nil => simp
  | cons x xs ih =>
    have hx : p x = true := h x (by simp)
    simp only [List.cons_append, List.dropWhile_cons, hx, if_true]
    exact ih (fun c hc => h c (by simp [hc]))

theorem takeWhile_all_stop {p : Char → Bool} {xs : List Char} {y : Char}
    (zs : List Char) (h : ∀ c ∈ xs, p c = true) (hy : p y = false) :
    (xs ++ y :: zs).takeWhile p = xs := by
  rw [takeWhile_append_all (y :: zs) h]
  simp [List.takeWhile_cons, hy]

theorem dropWhile_all_stop {p : Char → Bool} {xs : List Char} {y : Char}
    (zs : List Char) (h : ∀ c ∈ xs, p c = true) (hy : p y = false) :
    (xs ++ y :: zs).dropWhile p = y :: zs := by
  rw [dropWhile_append_all (y :: zs) h]
  simp [List.dropWhile_cons, hy]

/-! ### C2: the section split of the Content Formatter -/

theorem splitSecGo_true (ls : List (List Char)) :
    splitSecGo ls true = ([], ls.filter (fun l => !hasReqKw l)) := by
  induction ls with
  | nil => rfl
  | cons l rest ih =>
    by_cases h : hasReqKw l
    · simp [splitSecGo, h, ih, List.filter_cons]
    · simp [splitSecGo, h, ih, List.filter_cons]

theorem splitSecGo_false (ls : List (List Char)) :
    splitSecGo ls false =
      (ls.takeWhile (fun l => !hasReqKw l),
       ((ls.dropWhile (fun l => !hasReqKw l)).drop 1).filter (fun l => !hasReqKw l)) := by
  induction ls with
  | nil => rfl
  | cons l rest ih =>
    by_cases h : hasReqKw l
    · simp [splitSecGo, h, splitSecGo_true, List.takeWhile_cons, List.dropWhile_cons]
    · simp [splitSecGo, h, ih, List.takeWhile_cons, List.dropWhile_cons]

/-- C2 (amended).  The scan is a single forward pass: lines strictly before
the first line containing the case-insensitive substring `requirement` form
the description sub-sequence, that first separator line appears in neither
output, and the subsequent lines form the requirements sub-sequence EXCEPT
that every later line containing `requirement` is likewise consumed as a
separator and appears in neither output (the loop tests every line, so the
mode switch is idempotent but the test keeps swallowing matching lines).
If no line contains `requirement`, every line belongs to description and
requirements is empty — the `dropWhile`/`drop 1`/`filter` right-hand side
specialises to `(lines, [])` in that case. -/
theorem splitSections_characterisation (lines : List (List Char)) :
    splitSections lines =
      (lines.takeWhile (fun l => !hasReqKw l),
       ((lines.dropWhile (fun l => !hasReqKw l)).drop 1).filter (fun l => !hasReqKw l)) :=
  splitSecGo_false lines

/-- C2 counterexample.  On the concrete cleaned input
`["a", "Requirements", "b", "more requirement stuff", "c"]` the original
claim predicts description `["a"]` and requirements `["b", "more requirement
stuff", "c"]` (all lines after the first separator), but the code also
consumes the later line containing `requirement`, producing `["b", "c"]`. -/
theorem splitSections_counterexample :
    splitSections
        [("a").toList, ("Requirements").toList, ("b").toList,
         ("more requirement stuff").toList, ("c").toList] ≠
      ([("a").toList],
       [("b").toList, ("more requirement stuff").toList, ("c").toList]) := by
  decide

/-! ### C4: title/company extraction from the h1 heading -/

theorem splitAtGo_ne_nil : ∀ (n : Nat) (t : List Char), splitAtGo n t ≠ [] := by
  intro n
  induction n with
  | zero => intro t; simp [splitAtGo]
  | succ n ih =>
    intro t
    match t with
    | [] => simp [splitAtGo]
    | c :: rest =>
      cases h : sepAtL.isPrefixOf (c :: rest) with
      | true => simp [splitAtGo, h]
      | false =>
        simp only [splitAtGo, h, Bool.false_eq_true, if_false]
        cases hs : splitAtGo n rest <;> simp

theorem splitAtGo_fuel : ∀ (n m : Nat) (t : List Char),
    t.length ≤ n → t.length ≤ m → splitAtGo n t = splitAtGo m t := by
  intro n
  induction n with
  | zero =>
    intro m t hn _
    have ht : t = [] := List.length_eq_zero.mp (Nat.le_zero.mp hn)
    subst ht
    cases m <;> rfl
  | succ n ih =>
    intro m t hn hm
    match t with
    | [] => cases m <;> rfl
    | c :: rest =>
      match m with
      | 0 => exact absurd hm (by simp)
      | m + 1 =>
        simp only [List.length_cons, Nat.succ_le_succ_iff] at hn hm
        cases h : sepAtL.isPrefixOf (c :: rest) with
        | true =>
          simp only [splitAtGo, h, if_true]
          have hd : (rest.drop 3).length ≤ rest.length := by
            simp [List.length_drop]
          rw [ih m (rest.drop 3) (Nat.le_trans hd hn) (Nat.le_trans hd hm)]
        | false =>
          simp only [splitAtGo, h, Bool.false_eq_true, if_false]
          rw [ih m rest hn hm]

/-- Unfolding rule for `splitOnAtSep` in terms of the first occurrence of the
`" at "` separator: no occurrence yields the singleton, an occurrence at
index `i` cuts there and recurses after the four separator characters. -/
theorem splitOnAtSep_eq (t : List Char) :
    splitOnAtSep t =
      match firstSepIdx t with
      | none => [t]
      | some i => t.take i :: splitOnAtSep (t.drop (i + 4)) := by
  induction t with
  | nil => rfl
  | cons c rest ih =>
    show splitAtGo (rest.length + 1) (c :: rest) = _
    cases h : sepAtL.isPrefixOf (c :: rest) with
    | true =>
      simp only [splitAtGo, h, if_true, firstSepIdx]
      have hd : (rest.drop 3).length ≤ rest.length := by
        simp [List.length_drop]
      rw [splitAtGo_fuel rest.length (rest.drop 3).length (rest.drop 3) hd (Nat.le_refl _)]
      rfl
    | false =>
      simp only [splitAtGo, h, Bool.false_eq_true, if_false, firstSepIdx]
      have hgo : splitAtGo rest.length rest = splitOnAtSep rest := rfl
      rw [hgo, ih]
      cases hf : firstSepIdx rest with
      | none => simp [hf]
      | some i => simp [hf, List.take_succ_cons, List.drop_succ_cons]

theorem splitOnAtSep_ne_nil (t : List Char) : splitOnAtSep t ≠ [] :=
  splitAtGo_ne_nil t.length t

/-- C4 (amended).  `h1.split(' at ')` splits on EVERY non-overlapping
occurrence of the literal `" at "`, so: with no occurrence the company is
empty and the title is the whole (trimmed) heading; with at least one
occurrence at first index `i`, the title is the trimmed part before `i` and
the company is the trimmed segment strictly between the first occurrence and
the second one — only when there is no second occurrence is it the entire
remainder after the first. -/
theorem titleCompany_characterisation (t : List Char) :
    titleCompanyOf t =
      match firstSepIdx t with
      | none => (stripCL t, [])
      | some i =>
        (stripCL (t.take i),
         stripCL (match firstSepIdx (t.drop (i + 4)) with
                  | none => t.drop (i + 4)
                  | some j => (t.drop (i + 4)).take j)) := by
  unfold titleCompanyOf
  rw [splitOnAtSep_eq]
  cases h : firstSepIdx t with
  | none => simp
  | some i =>
    have hlen : 0 < (splitOnAtSep (t.drop (i + 4))).length :=
      List.length_pos.mpr (splitOnAtSep_ne_nil _)
    simp only [List.headD_cons, List.length_cons]
    rw [if_pos (by omega)]
    rw [splitOnAtSep_eq (t.drop (i + 4))]
    cases h2 : firstSepIdx (t.drop (i + 4)) with
    | none => simp
    | some j => simp

/-- C4 counterexample.  On the heading `"X at Y at Z"` the original claim
predicts company = `"Y at Z"` (the entire remainder after the first
`" at "`), but `split(' at ')` cuts at every occurrence and `parts[1]` is
only `"Y"`. -/
theorem titleCompany_counterexample :
    (titleCompanyOf (("X at Y at Z").toList)).2 ≠ ("Y at Z").toList := by
  decide

/-! ### C9: the derived slug -/

/-- ASCII uppercase letters `A`–`Z`, identified by codepoint. -/
def isUpperC (c : Char) : Bool :=
  decide (65 ≤ c.toNat) && decide (c.toNat ≤ 90)

theorem isUpperC_lowerChar (c : Char) : isUpperC (lowerChar c) = false := by
  unfold lowerChar
  split
  next h =>
    have ht : (Char.ofNatAux (c.toNat + 32) (Or.inl (by omega))).toNat = c.toNat + 32 := rfl
    simp only [isUpperC, ht, Bool.and_eq_false_iff, decide_eq_false_iff_not]
    omega
  next h =>
    simp only [isUpperC, Bool.and_eq_false_iff, decide_eq_false_iff_not]
    omega

theorem mem_joinSep {c : Char} {sep : Char} :
    ∀ {ls : List (List Char)}, c ∈ joinSep sep ls → c = sep ∨ ∃ w ∈ ls, c ∈ w := by
  intro ls
  induction ls with
  | nil => simp [joinSep]
  | cons l ls ih =>
    intro hc
    match ls, hc with
    | [], hc => exact Or.inr ⟨l, by simp, hc⟩
    | l2 :: ls2, hc =>
      rcases List.mem_append.mp hc with h | h
      · exact Or.inr ⟨l, by simp, h⟩
      · rcases List.mem_cons.mp h with h | h
        · exact Or.inl h
        · rcases ih h with h | ⟨w, hw, hcw⟩
          · exact Or.inl h
          · exact Or.inr ⟨w, by simp [hw], hcw⟩

theorem splitWsGo_mem :
    ∀ (s : List Char) (cur : List Char) (w : List Char), w ∈ splitWsGo cur s →
      ∀ c ∈ w, c ∈ cur ∨ c ∈ s := by
  intro s
  induction s with
  | nil =>
    intro cur w hw c hc
    simp only [splitWsGo] at hw
    split at hw
    · simp at hw
    · rcases List.mem_singleton.mp hw with rfl
      exact Or.inl (List.mem_reverse.mp hc)
  | cons x rest ih =>
    intro cur w hw c hc
    simp only [splitWsGo] at hw
    split at hw
    · split at hw
      · rcases ih [] w hw c hc with h | h
        · simp at h
        · exact Or.inr (List.mem_cons_of_mem _ h)
      · rcases List.mem_cons.mp hw with rfl | hw2
        · exact Or.inl (List.mem_reverse.mp hc)
        · rcases ih [] w hw2 c hc with h | h
          · simp at h
          · exact Or.inr (List.mem_cons_of_mem _ h)
    · rcases ih (x :: cur) w hw c hc with h | h
      · rcases List.mem_cons.mp h with rfl | h2
        · exact Or.inr (List.mem_cons_self _ _)
        · exact Or.inl h2
      · exact Or.inr (List.mem_cons_of_mem _ h)

theorem splitWsGo_nonspace :
    ∀ (s : List Char) (cur : List Char), (∀ c ∈ cur, isSpaceC c = false) →
      ∀ w ∈ splitWsGo cur s, ∀ c ∈ w, isSpaceC c = false := by
  intro s
  induction s with
  | nil =>
    intro cur hcur w hw c hc
    simp only [splitWsGo] at hw
    split at hw
    · simp at hw
    · rcases List.mem_singleton.mp hw with rfl
      exact hcur c (List.mem_reverse.mp hc)
  | cons x rest ih =>
    intro cur hcur w hw c hc
    simp only [splitWsGo] at hw
    split at hw
    next hx =>
      split at hw
      · exact ih [] (by simp) w hw c hc
      · rcases List.mem_cons.mp hw with rfl | hw2
        · exact hcur c (List.mem_reverse.mp hc)
        · exact ih [] (by simp) w hw2 c hc
    next hx =>
      refine ih (x :: cur) ?_ w hw c hc
      intro d hd
      rcases List.mem_cons.mp hd with rfl | hd2
      · simpa using hx
      · exact hcur d hd2

/-- C9.  The slug derived on source line 130 is at most 50 characters long,
contains no ASCII uppercase letter and no whitespace character, and equals
the title's lower-cased whitespace-separated words joined by hyphens and
truncated to 50 characters (no re-trimming after the cut). -/
theorem slug_spec (title : List Char) :
    (slugOf title).length ≤ 50 ∧
    (∀ c ∈ slugOf title, isUpperC c = false ∧ isSpaceC c = false) ∧
    slugOf title = (joinSep '-' (splitWs (lowerCL title))).take 50 := by
  refine ⟨List.length_take_le _ _, ?_, rfl⟩
  intro c hc
  have hj : c ∈ joinSep '-' (splitWs (lowerCL title)) :=
    List.take_subset _ _ hc
  rcases mem_joinSep hj with rfl | ⟨w, hw, hcw⟩
  · exact ⟨by decide, by decide⟩
  · constructor
    · rcases splitWsGo_mem (lowerCL title) [] w hw c hcw with h | h
      · simp at h
      · rcases List.mem_map.mp h with ⟨d, _, rfl⟩
        exact isUpperC_lowerChar d
    · exact splitWsGo_nonspace (lowerCL title) [] (by simp) w hw c hcw

/-- C9 witness: the slug property instantiated at the concrete title
`"Senior QA Engineer"`. -/
theorem slug_spec_witness :
    (slugOf (("Senior QA Engineer").toList)).length ≤ 50 ∧
    (∀ c ∈ slugOf (("Senior QA Engineer").toList), isUpperC c = false ∧ isSpaceC c = false) ∧
    slugOf (("Senior QA Engineer").toList) =
      (joinSep '-' (splitWs (lowerCL (("Senior QA Engineer").toList)))).take 50 :=
  slug_spec (("Senior QA Engineer").toList)

/-! ### C8: extract_email finds exactly the leftmost email-shaped substring -/

/-- A string is email-shaped when it is a full match of the source's pattern
`[\w\.-]+@[\w\.-]+\.\w+`: a non-empty run of `[\w\.-]` characters, an `@`, a
non-empty run of `[\w\.-]` characters, a dot, and a non-empty run of word
characters. -/
def EmailShaped (s : List Char) : Prop :=
  ∃ a b w, s = a ++ '@' :: (b ++ '.' :: w) ∧ a ≠ [] ∧ b ≠ [] ∧ w ≠ [] ∧
    (∀ c ∈ a, isEmailC c = true) ∧ (∀ c ∈ b, isEmailC c = true) ∧
    (∀ c ∈ w, isWordC c = true)

/-- The run `r` admits a decomposition `x ++ '.' :: c :: y` with `c` a word
character (the shape `dotSplit0` searches for, with `x` possibly empty). -/
def HasDotSplit (r : List Char) : Prop :=
  ∃ x c y, r = x ++ '.' :: c :: y ∧ isWordC c = true

/-- Like `HasDotSplit` but with the part before the dot non-empty, as the
`[\w\.-]+` before `\.` requires. -/
def HasDotSplit1 (r : List Char) : Prop :=
  ∃ x c y, r = x ++ '.' :: c :: y ∧ isWordC c = true ∧ x ≠ []

theorem isEmailC_of_isWordC {c : Char} (h : isWordC c = true) : isEmailC c = true := by
  simp [isEmailC, h]

theorem not_emailShaped_nil : ¬ EmailShaped [] := by
  rintro ⟨a, b, w, hmeq, ha, -, -, -, -, -⟩
  cases a <;> simp at hmeq

theorem emailShaped_ne_nil {m : List Char} (h : EmailShaped m) : m ≠ [] := by
  rintro rfl
  exact not_emailShaped_nil h

theorem dotSplit0_none : ∀ {r : List Char}, dotSplit0 r = none → ¬ HasDotSplit r := by
  intro r
  induction r with
  | nil =>
    rintro - ⟨x, c, y, hr, -⟩
    cases x <;> simp at hr
  | cons a rest ih =>
    intro h0 hd
    rcases hd with ⟨x, c, y, hr, hc⟩
    simp only [dotSplit0] at h0
    cases hds : dotSplit0 rest with
    | some p =>
      rw [hds] at h0
      simp at h0
    | none =>
      rw [hds] at h0
      cases x with
      | nil =>
        simp only [List.nil_append, List.cons.injEq] at hr
        rcases hr with ⟨rfl, rfl⟩
        simp [List.takeWhile_cons, hc] at h0
      | cons e x' =>
        simp only [List.cons_append, List.cons.injEq] at hr
        rcases hr with ⟨rfl, hr2⟩
        exact ih hds ⟨x', c, y, hr2, hc⟩

theorem takeWhile_eq_cons {p : Char → Bool} {l : List Char} {d : Char}
    {ws : List Char} (h : l.takeWhile p = d :: ws) :
    ∃ l', l = d :: l' ∧ p d = true ∧ ws = l'.takeWhile p := by
  cases l with
  | nil => simp at h
  | cons e l' =>
    rw [List.takeWhile_cons] at h
    by_cases hp : p e = true
    · rw [if_pos hp] at h
      rcases List.cons.injEq .. ▸ h with ⟨rfl, rfl⟩
      exact ⟨l', rfl, hp, rfl⟩
    · rw [if_neg hp] at h
      simp at h

theorem dotSplit0_some_shape :
    ∀ {r b w : List Char}, dotSplit0 r = some (b, w) →
      ∃ c y, r = b ++ '.' :: c :: y ∧ isWordC c = true ∧
        w = (c :: y).takeWhile isWordC := by
  intro r
  induction r with
  | nil => intro b w h; simp [dotSplit0] at h
  | cons a rest ih =>
    intro b w h
    simp only [dotSplit0] at h
    cases hds : dotSplit0 rest with
    | some p =>
      rw [hds] at h
      obtain ⟨b', w'⟩ := p
      simp only [Option.some.injEq, Prod.mk.injEq] at h
      rcases h with ⟨rfl, rfl⟩
      rcases ih hds with ⟨c, y, hr, hc, hw⟩
      exact ⟨c, y, by simp [hr], hc, hw⟩
    | none =>
      rw [hds] at h
      by_cases ha : a = '.'
      · subst ha
        rw [if_pos rfl] at h
        cases htw : rest.takeWhile isWordC with
        | nil => rw [htw] at h; simp at h
        | cons d ws =>
          rw [htw] at h
          simp only [Option.some.injEq, Prod.mk.injEq] at h
          rcases h with ⟨rfl, rfl⟩
          rcases takeWhile_eq_cons htw with ⟨l', rfl, hd, hws⟩
          refine ⟨d, l', by simp, hd, ?_⟩
          rw [List.takeWhile_cons, if_pos hd, ← hws]
      · rw [if_neg ha] at h
        simp at h

theorem dotSplit0_some_nil :
    ∀ {r w : List Char}, dotSplit0 r = some ([], w) → ¬ HasDotSplit1 r := by
  intro r w h
  cases r with
  | nil => simp [dotSplit0] at h
  | cons a rest =>
    simp only [dotSplit0] at h
    cases hds : dotSplit0 rest with
    | some p =>
      rw [hds] at h
      obtain ⟨b', w'⟩ := p
      simp at h
    | none =>
      rw [hds] at h
      rintro ⟨x, c, y, hr, hc, hx⟩
      cases x with
      | nil => exact hx rfl
      | cons e x' =>
        simp only [List.cons_append, List.cons.injEq] at hr
        exact dotSplit0_none hds ⟨x', c, y, hr.2, hc⟩

theorem emailMatchAt_some :
    ∀ {cs m : List Char}, emailMatchAt cs = some m →
      EmailShaped m ∧ ∃ rest, cs = m ++ rest := by
  intro cs m h
  cases hdrop : cs.dropWhile isEmailC with
  | nil => simp [emailMatchAt, hdrop] at h
  | cons c rest2 =>
    simp only [emailMatchAt, hdrop] at h
    by_cases hc : c = '@'
    · subst hc
      rw [if_pos rfl] at h
      by_cases hrun : (cs.takeWhile isEmailC).isEmpty = true
      · rw [if_pos hrun] at h
        simp at h
      · rw [if_neg hrun] at h
        cases hds : dotSplit0 (rest2.takeWhile isEmailC) with
        | none => simp [hds] at h
        | some p =>
          obtain ⟨b, w⟩ := p
          simp only [hds] at h
          by_cases hb : b.isEmpty = true
          · rw [if_pos hb] at h
            simp at h
          · rw [if_neg hb] at h
            simp only [Option.some.injEq] at h
            subst h
            have hane : cs.takeWhile isEmailC ≠ [] := by
              simpa [List.isEmpty_iff] using hrun
            have hbne : b ≠ [] := by
              simpa [List.isEmpty_iff] using hb
            rcases dotSplit0_some_shape hds with ⟨c0, y, htw, hc0, hw⟩
            have hmemtw : ∀ x ∈ b, x ∈ rest2.takeWhile isEmailC := by
              intro x hx
              rw [htw]
              exact List.mem_append_left _ hx
            have hwW : ∀ x ∈ w, isWordC x = true := by
              intro x hx
              rw [hw] at hx
              exact List.mem_takeWhile_imp hx
            have hwne : w ≠ [] := by
              rw [hw]
              simp [List.takeWhile_cons, hc0]
            refine ⟨⟨cs.takeWhile isEmailC, b, w, by simp, hane, hbne, hwne,
              fun x hx => List.mem_takeWhile_imp hx,
              fun x hx => List.mem_takeWhile_imp (hmemtw x hx), hwW⟩, ?_⟩
            have h1 : cs = cs.takeWhile isEmailC ++ '@' :: rest2 := by
              conv_lhs => rw [← List.takeWhile_append_dropWhile (p := isEmailC) (l := cs)]
              rw [hdrop]
            have h2 : rest2 = (b ++ '.' :: c0 :: y) ++ rest2.dropWhile isEmailC := by
              conv_lhs => rw [← List.takeWhile_append_dropWhile (p := isEmailC) (l := rest2)]
              rw [htw]
            have h3 : c0 :: y = w ++ (c0 :: y).dropWhile isWordC := by
              conv_lhs => rw [← List.takeWhile_append_dropWhile (p := isWordC) (l := c0 :: y)]
              rw [hw]
            refine ⟨(c0 :: y).dropWhile isWordC ++ rest2.dropWhile isEmailC, ?_⟩
            calc cs = cs.takeWhile isEmailC ++ '@' :: rest2 := h1
              _ = cs.takeWhile isEmailC ++
                    '@' :: ((b ++ '.' :: c0 :: y) ++ rest2.dropWhile isEmailC) := by
                    conv_lhs => rw [h2]
              _ = cs.takeWhile isEmailC ++
                    '@' :: ((b ++ '.' :: (w ++ (c0 :: y).dropWhile isWordC)) ++
                      rest2.dropWhile isEmailC) := by
                    conv_lhs => rw [h3]
              _ = (cs.takeWhile isEmailC ++ '@' :: b ++ '.' :: w) ++
                    ((c0 :: y).dropWhile isWordC ++ rest2.dropWhile isEmailC) := by
                    simp [List.append_assoc]
    · rw [if_neg hc] at h
      simp at h

theorem emailMatchAt_none :
    ∀ {cs : List Char}, emailMatchAt cs = none →
      ∀ m rest, cs = m ++ rest → ¬ EmailShaped m := by
  intro cs h m rest hcs hm
  rcases hm with ⟨a, b, w, hmeq, ha, hb, hwne, haE, hbE, hwW⟩
  subst hmeq
  cases w with
  | nil => exact hwne rfl
  | cons wc w' =>
    subst hcs
    have hassoc : (a ++ '@' :: (b ++ '.' :: wc :: w')) ++ rest =
        a ++ '@' :: ((b ++ '.' :: wc :: w') ++ rest) := by
      simp [List.append_assoc]
    have hdw : ((a ++ '@' :: (b ++ '.' :: wc :: w')) ++ rest).dropWhile isEmailC =
        '@' :: ((b ++ '.' :: wc :: w') ++ rest) := by
      rw [hassoc]
      exact dropWhile_all_stop _ haE (by decide)
    have htw1 : ((a ++ '@' :: (b ++ '.' :: wc :: w')) ++ rest).takeWhile isEmailC = a := by
      rw [hassoc]
      exact takeWhile_all_stop _ haE (by decide)
    simp only [emailMatchAt, hdw] at h
    rw [if_pos trivial] at h
    rw [htw1] at h
    have ha' : a.isEmpty = false := by
      simpa [List.isEmpty_iff] using ha
    simp only [ha', Bool.false_eq_true, if_false] at h
    have hxs : ∀ x ∈ b ++ '.' :: wc :: w', isEmailC x = true := by
      intro x hx
      rcases List.mem_append.mp hx with hx | hx
      · exact hbE x hx
      · rcases List.mem_cons.mp hx with rfl | hx
        · decide
        · rcases List.mem_cons.mp hx with rfl | hx
          · exact isEmailC_of_isWordC (hwW x (by simp))
          · exact isEmailC_of_isWordC (hwW x (by simp [hx]))
    have htw2 : ((b ++ '.' :: wc :: w') ++ rest).takeWhile isEmailC =
        (b ++ '.' :: wc :: w') ++ rest.takeWhile isEmailC :=
      takeWhile_append_all _ hxs
    rw [htw2] at h
    have hds1 : HasDotSplit1 ((b ++ '.' :: wc :: w') ++ rest.takeWhile isEmailC) :=
      ⟨b, wc, w' ++ rest.takeWhile isEmailC, by simp, hwW wc (by simp), hb⟩
    cases hds : dotSplit0 ((b ++ '.' :: wc :: w') ++ rest.takeWhile isEmailC) with
    | none =>
      rcases hds1 with ⟨x, c0, y, h1, h2, -⟩
      exact dotSplit0_none hds ⟨x, c0, y, h1, h2⟩
    | some p =>
      obtain ⟨b2, w2⟩ := p
      simp only [hds] at h
      by_cases hb2 : b2.isEmpty = true
      · have hb2' : b2 = [] := List.isEmpty_iff.mp hb2
        subst hb2'
        exact dotSplit0_some_nil hds hds1
      · rw [if_neg hb2] at h
        simp at h

theorem emailSearch_none :
    ∀ {cs : List Char}, emailSearch cs = none →
      ∀ pre mid post, cs = pre ++ mid ++ post → ¬ EmailShaped mid := by
  intro cs
  induction cs with
  | nil =>
    intro _h pre mid post hcs
    rcases List.append_eq_nil.mp hcs.symm with ⟨h1, -⟩
    rcases List.append_eq_nil.mp h1 with ⟨-, rfl⟩
    exact not_emailShaped_nil
  | cons c rest ih =>
    intro h pre mid post hcs
    simp only [emailSearch] at h
    cases hm : emailMatchAt (c :: rest) with
    | some m0 => simp [hm] at h
    | none =>
      rw [hm] at h
      cases pre with
      | nil =>
        simp only [List.nil_append] at hcs
        exact emailMatchAt_none hm mid post hcs
      | cons p pre' =>
        simp only [List.cons_append, List.cons.injEq] at hcs
        exact ih h pre' mid post hcs.2

theorem emailSearch_some :
    ∀ {cs m : List Char}, emailSearch cs = some m →
      ∃ pre post, cs = pre ++ m ++ post ∧ EmailShaped m ∧
        ∀ pre' mid' post', cs = pre' ++ mid' ++ post' → EmailShaped mid' →
          pre.length ≤ pre'.length := by
  intro cs
  induction cs with
  | nil => intro m h; simp [emailSearch] at h
  | cons c rest ih =>
    intro m h
    simp only [emailSearch] at h
    cases hm : emailMatchAt (c :: rest) with
    | some m0 =>
      rw [hm] at h
      simp only [Option.some.injEq] at h
      subst h
      rcases emailMatchAt_some hm with ⟨hsh, r, hr⟩
      exact ⟨[], r, by simpa using hr, hsh, fun pre' _ _ _ _ => Nat.zero_le _⟩
    | none =>
      rw [hm] at h
      rcases ih h with ⟨pre, post, heq, hsh, hmin⟩
      refine ⟨c :: pre, post, by simp [heq], hsh, ?_⟩
      intro pre' mid' post' hcs' hsh'
      cases pre' with
      | nil =>
        simp only [List.nil_append] at hcs'
        exact absurd hsh' (emailMatchAt_none hm mid' post' hcs')
      | cons p pre'' =>
        simp only [List.cons_append, List.cons.injEq] at hcs'
        have := hmin pre'' mid' post' hcs'.2 hsh'
        simpa using Nat.succ_le_succ this

/-- C8.  `extract_email` returns the empty string exactly when the text
contains no email-shaped substring; when it returns a non-empty string, that
string is an email-shaped substring of the text occurring at the leftmost
position at which any email-shaped substring occurs. -/
theorem extract_email_leftmost (text : List Char) :
    (extract_email text = [] ↔
      ∀ pre mid post, text = pre ++ mid ++ post → ¬ EmailShaped mid) ∧
    (extract_email text ≠ [] →
      ∃ pre post, text = pre ++ extract_email text ++ post ∧
        EmailShaped (extract_email text) ∧
        ∀ pre' mid' post', text = pre' ++ mid' ++ post' → EmailShaped mid' →
          pre.length ≤ pre'.length) := by
  cases he : emailSearch text with
  | none =>
    have hnil : extract_email text = [] := by
      simp [extract_email, he]
    refine ⟨⟨fun _ => emailSearch_none he, fun _ => hnil⟩, fun hne => absurd hnil hne⟩
  | some m =>
    have hm : extract_email text = m := by
      simp [extract_email, he]
    rcases emailSearch_some he with ⟨pre, post, heq, hsh, hmin⟩
    constructor
    · constructor
      · intro h0
        rw [hm] at h0
        subst h0
        exact absurd hsh not_emailShaped_nil
      · intro hall
        exact absurd hsh (hall pre m post heq)
    · intro _
      rw [hm]
      exact ⟨pre, post, heq, hsh, hmin⟩

/-- C8 witness: the leftmost-match property instantiated at the concrete text
`"write to a@b.co or c@d.org"`. -/
theorem extract_email_leftmost_witness :
    (extract_email (("write to a@b.co or c@d.org").toList) = [] ↔
      ∀ pre mid post, ("write to a@b.co or c@d.org").toList = pre ++ mid ++ post →
        ¬ EmailShaped mid) ∧
    (extract_email (("write to a@b.co or c@d.org").toList) ≠ [] →
      ∃ pre post, ("write to a@b.co or c@d.org").toList =
          pre ++ extract_email (("write to a@b.co or c@d.org").toList) ++ post ∧
        EmailShaped (extract_email (("write to a@b.co or c@d.org").toList)) ∧
        ∀ pre' mid' post',
          ("write to a@b.co or c@d.org").toList = pre' ++ mid' ++ post' →
          EmailShaped mid' → pre.length ≤ pre'.length) :=
  extract_email_leftmost (("write to a@b.co or c@d.org").toList)

/-- Concrete run: with two addresses present, `extract_email` returns the
leftmost one. -/
theorem extract_email_two_addresses :
    extract_email (("write to a@b.co or c@d.org").toList) = ("a@b.co").toList := by
  decide

/-- Concrete run: with no email-shaped substring, `extract_email` returns the
empty string. -/
theorem extract_email_no_address :
    extract_email (("no address in here").toList) = [] := by
  decide

/-! ### C1, C3, C10: the Job Record Extractor -/

/-- A detail page whose application-method block carries only an email
address (used as a concrete witness document). -/
def docOnlyEmail : JobSoup :=
  { h1Text := some (("Clerk at Acme").toList),
    companyDetails := none,
    aboutLinkNextP := none,
    keyInfo := [],
    jobDetails := none,
    methodNextDiv := some (some { text := ("send a cv to hr@acme.co").toList,
                                  firstHref := none }) }

/-- A malformed detail page: the `application-method` heading exists but no
`div` follows it anywhere in the document. -/
def docHeadingNoDiv : JobSoup :=
  { h1Text := none,
    companyDetails := none,
    aboutLinkNextP := none,
    keyInfo := [],
    jobDetails := none,
    methodNextDiv := some none }

/-- C1.  `extract_job_data` returns "no record" exactly when both extracted
application-contact fields are empty, and returns a record exactly when the
contact extraction completed with at least one of the two fields
non-empty. -/
theorem extract_job_data_no_record_iff (soup : JobSoup) :
    (extract_job_data soup = Except.ok none ↔
      appMethodFields soup = Except.ok ([], [])) ∧
    ((∃ r, extract_job_data soup = Except.ok (some r)) ↔
      ∃ e u, appMethodFields soup = Except.ok (e, u) ∧ (e ≠ [] ∨ u ≠ [])) := by
  cases ha : appMethodFields soup with
  | error err =>
    have hx : extract_job_data soup = Except.error err := by
      simp [extract_job_data, ha]
    exact ⟨by simp [hx, ha], by simp [hx, ha]⟩
  | ok contact =>
    obtain ⟨e, u⟩ := contact
    cases hb : e.isEmpty && u.isEmpty with
    | true =>
      have he : e = [] := by
        cases e with
        | nil => rfl
        | cons a as => simp at hb
      subst he
      have hu : u = [] := by
        cases u with
        | nil => rfl
        | cons a as => simp at hb
      subst hu
      have hx : extract_job_data soup = Except.ok none := by
        simp [extract_job_data, ha]
      constructor
      · simp [hx, ha]
      · constructor
        · rintro ⟨r, hr⟩
          rw [hx] at hr
          simp at hr
        · rintro ⟨e', u', hr, hne⟩
          simp only [Except.ok.injEq, Prod.mk.injEq] at hr
          obtain ⟨rfl, rfl⟩ := hr.symm
          rcases hne with h | h <;> exact absurd rfl h
    | false =>
      have hx : extract_job_data soup =
          Except.ok (some (jobRecordOf soup e u)) := by
        simp [extract_job_data, ha, hb]
      constructor
      · constructor
        · intro h0
          rw [hx] at h0
          simp at h0
        · intro h0
          simp only [Except.ok.injEq, Prod.mk.injEq] at h0
          obtain ⟨rfl, rfl⟩ := h0
          simp at hb
      · constructor
        · intro _
          refine ⟨e, u, rfl, ?_⟩
          have hor : e.isEmpty = false ∨ u.isEmpty = false := by
            cases he2 : e.isEmpty <;> cases hu2 : u.isEmpty <;> simp_all
          rcases hor with h | h
          · exact Or.inl (List.isEmpty_eq_false.mp h)
          · exact Or.inr (List.isEmpty_eq_false.mp h)
        · intro _
          exact ⟨jobRecordOf soup e u, hx⟩

/-- C1 witness: the no-record iff instantiated at the concrete
email-only document. -/
theorem extract_job_data_no_record_iff_witness :
    (extract_job_data docOnlyEmail = Except.ok none ↔
      appMethodFields docOnlyEmail = Except.ok ([], [])) ∧
    ((∃ r, extract_job_data docOnlyEmail = Except.ok (some r)) ↔
      ∃ e u, appMethodFields docOnlyEmail = Except.ok (e, u) ∧
        (e ≠ [] ∨ u ≠ [])) :=
  extract_job_data_no_record_iff docOnlyEmail

/-- C3 (failing run).  On a document whose `application-method` heading has
no following `div`, the source evaluates `method_block.find_next('div')
.get_text(...)` on `None` and raises `AttributeError`; the model returns the
error marker, so extraction does NOT run to completion on every document. -/
theorem extract_job_data_raises : extract_job_data docHeadingNoDiv = Except.error () :=
  rfl

theorem jobRecordOf_keys (soup : JobSoup) (e u : List Char) :
    (jobRecordOf soup e u).map Prod.fst = jobFieldNames :=
  rfl

theorem extract_ok_keys {soup : JobSoup} {r : JobRecord}
    (h : extract_job_data soup = Except.ok (some r)) :
    r.map Prod.fst = jobFieldNames := by
  cases ha : appMethodFields soup with
  | error err => simp [extract_job_data, ha] at h
  | ok contact =>
    obtain ⟨e, u⟩ := contact
    cases hb : e.isEmpty && u.isEmpty with
    | true => simp [extract_job_data, ha, hb] at h
    | false =>
      simp only [extract_job_data, ha, hb, Bool.false_eq_true, if_false,
        Except.ok.injEq, Option.some.injEq] at h
      subst h
      rfl

theorem scrape_job_some {fetch : List Char → Option JobSoup} {url : List Char}
    {r : JobRecord} (h : scrape_job fetch url = some r) :
    ∃ soup, extract_job_data soup = Except.ok (some r) := by
  unfold scrape_job at h
  cases hf : fetch url with
  | none => simp [hf] at h
  | some soup =>
    simp only [hf] at h
    cases hx : extract_job_data soup with
    | error err => simp [hx] at h
    | ok rr =>
      simp only [hx] at h
      cases rr with
      | none => simp at h
      | some r0 =>
        simp only [Option.some.injEq] at h
        subst h
        exact ⟨soup, hx⟩

theorem loopGo_rows_from_extract (fetch : List Char → Option JobSoup) :
    ∀ ls r, r ∈ (loopGo fetch ls).2 →
      ∃ soup, extract_job_data soup = Except.ok (some r) := by
  intro ls
  induction ls with
  | nil => intro r hr; simp [loopGo] at hr
  | cons l rest ih =>
    intro r hr
    simp only [loopGo] at hr
    cases hs : scrape_job fetch (resolveUrl l) with
    | none =>
      rw [hs] at hr
      exact ih r hr
    | some r0 =>
      rw [hs] at hr
      rcases List.mem_cons.mp hr with rfl | hr2
      · exact scrape_job_some hs
      · exact ih r hr2

/-- C10.  Every record produced by `extract_job_data` is an ordered mapping
with exactly the 17 keys of the source's dict literal, in that fixed order;
consequently every record in an orchestrator batch carries the same field
set in the same order, which is also the CSV header taken from the first
record's keys. -/
theorem record_keys_fixed (fetch : List Char → Option JobSoup)
    (links : List (List Char)) :
    (∀ r ∈ (mainLoop fetch links).2, r.map Prod.fst = jobFieldNames) ∧
    (∀ (soup : JobSoup) (r : JobRecord),
      extract_job_data soup = Except.ok (some r) → r.map Prod.fst = jobFieldNames) := by
  constructor
  · intro r hr
    rcases loopGo_rows_from_extract fetch (links.take 10) r hr with ⟨soup, hx⟩
    exact extract_ok_keys hx
  · intro soup r h
    exact extract_ok_keys h

/-- C10 witness: the key-order invariant instantiated at the concrete
email-only document. -/
theorem record_keys_fixed_witness :
    (recOfD (extract_job_data docOnlyEmail)).map Prod.fst = jobFieldNames :=
  (record_keys_fixed (fun _ => none) []).2 docOnlyEmail
    (recOfD (extract_job_data docOnlyEmail)) (by rfl)

/-! ### C5: the Link Collector's specific-wins strategy -/

/-- C5.  `get_job_links` returns exactly the matches of the first selector
strategy (in the fixed specific-to-least-specific order) with at least one
match, merging nothing across strategies, and falls back to the anchors whose
href contains `"/job/"` only when all three strategies yield nothing — i.e.
it coincides with the first-non-empty-wins specification function. -/
theorem get_job_links_eq_spec (d : ListingSoup) :
    get_job_links d = linkCollectorSpec d := by
  cases h1 : d.selMagB.isEmpty with
  | false => simp [get_job_links, linkCollectorSpec, tryStrategies, List.find?, h1]
  | true =>
    cases h2 : d.selJobListing.isEmpty with
    | false => simp [get_job_links, linkCollectorSpec, tryStrategies, List.find?, h1, h2]
    | true =>
      cases h3 : (selJobAll d).isEmpty with
      | false =>
        simp [get_job_links, linkCollectorSpec, tryStrategies, List.find?, h1, h2, h3]
      | true =>
        simp [get_job_links, linkCollectorSpec, tryStrategies, List.find?, h1, h2, h3]

/-! ### C6 and C7: the orchestrator loop and output flush -/

theorem loopGo_spec (fetch : List Char → Option JobSoup) :
    ∀ ls : List (List Char),
      (loopGo fetch ls).1 = ls.map resolveUrl ∧
      (loopGo fetch ls).2.length ≤ ls.length := by
  intro ls
  induction ls with
  | nil => simp [loopGo]
  | cons l rest ih =>
    constructor
    · simp only [loopGo, List.map_cons]
      rw [ih.1]
    · simp only [loopGo, List.length_cons]
      cases hrow : scrape_job fetch (resolveUrl l) with
      | none =>
        simp only [hrow]
        exact Nat.le_succ_of_le ih.2
      | some r =>
        simp only [hrow, List.length_cons]
        exact Nat.succ_le_succ ih.2

/-- C6.  The orchestrator's per-link loop visits exactly the first 10
collected links in list order (each resolved to its URL), its batch never
holds more than 10 records, and links beyond the first 10 are irrelevant to
the run. -/
theorem mainLoop_bounded (fetch : List Char → Option JobSoup)
    (links : List (List Char)) :
    (mainLoop fetch links).1 = (links.take 10).map resolveUrl ∧
    (mainLoop fetch links).2.length ≤ 10 ∧
    mainLoop fetch links = mainLoop fetch (links.take 10) := by
  refine ⟨(loopGo_spec fetch _).1, ?_, ?_⟩
  · exact Nat.le_trans (loopGo_spec fetch _).2 (List.length_take_le 10 links)
  · unfold mainLoop
    rw [List.take_take]
    norm_num

/-- C7.  A run writes an output file exactly when the accumulated batch is
non-empty: with zero collected links the loop body never runs and no file is
written, and when every visited page yields "no record" the batch stays empty
and no file is written either. -/
theorem mainRun_writes_iff (fetch : List Char → Option JobSoup)
    (listing : ListingSoup) :
    mainRun fetch listing = none ↔
      (mainLoop fetch (get_job_links listing)).2 = [] := by
  unfold mainRun
  by_cases h1 : (get_job_links listing).isEmpty = true
  · have h1' : get_job_links listing = [] := List.isEmpty_iff.mp h1
    simp [h1, h1', mainLoop, loopGo]
  · rw [if_neg h1]
    by_cases h2 : (mainLoop fetch (get_job_links listing)).2.isEmpty = true
    · have h2' := List.isEmpty_iff.mp h2
      simp [h2, h2']
    · have h2' : (mainLoop fetch (get_job_links listing)).2 ≠ [] := by
        simpa [List.isEmpty_iff] using h2
      simp [h2, h2']
